import Mathlib

/-!
Shallow embedding of the mangadex-loader repository
(`pkg/mangadex/mangadex.go`, `pkg/cbz/cbz.go`, `cmd/main.go`) and proofs
about the behaviour its specification describes.

Conventions of the embedding:
* Go strings are Lean `String`s; where byte-level lexicographic order
  matters we work on `List Char` (UTF-8 byte order coincides with
  code-point order, so `List Char` lexicographic order models Go's `<`
  on strings).
* `sort.SliceStable` / the lexical directory order of `filepath.Walk`
  are modelled by a stable insertion sort `sortBy`; a stable sort
  against a strict-weak-order comparator has a unique result, so any
  stable sort is a faithful model.
* Fallible Go code returns `Except`; panics are an explicit error type.
-/

namespace MangadexLoader

/-- Stable insertion of `a` into `l` for the strict comparator `lt`:
`a` is placed before the first element that is not strictly less than
`a`, which is exactly where a stable sort puts a later-arriving element. -/
def insertBy (lt : α → α → Bool) (a : α) : List α → List α
  | [] => [a]
  | x :: l => if lt x a then x :: insertBy lt a l else a :: x :: l

/-- Stable insertion sort with a strict comparator; model of Go's
`sort.SliceStable` (and of `sort.Strings`, which is also stable on the
distinct names of one directory). -/
def sortBy (lt : α → α → Bool) : List α → List α
  | [] => []
  | x :: l => insertBy lt x (sortBy lt l)

/-- Strict lexicographic comparison of rune sequences; model of Go's
`<` on strings (byte order of UTF-8 agrees with code-point order). -/
def lexLt : List Char → List Char → Bool
  | [], [] => false
  | [], _ :: _ => true
  | _ :: _, [] => false
  | a :: as, b :: bs => if a < b then true else if b < a then false else lexLt as bs

/-- Decimal digit character, as produced by Go's `fmt` package. -/
def digitChar (d : Nat) : Char := Char.ofNat (48 + d)

/-- Fuelled big-endian decimal digit expansion. -/
def digitsAux : Nat → Nat → List Char
  | 0, _ => []
  | fuel + 1, n =>
    if n < 10 then [digitChar n] else digitsAux fuel (n / 10) ++ [digitChar (n % 10)]

/-- Decimal representation of a natural number, as printed by `fmt`'s `%d`. -/
def digitsOf (n : Nat) : List Char := digitsAux (n + 1) n

/-- Model of Go's `fmt.Sprintf("%03d", n)`: the decimal representation
left-padded with `'0'` to a minimum width of three. -/
def pad3go (n : Nat) : List Char :=
  List.replicate (3 - (digitsOf n).length) '0' ++ digitsOf n

/-- Numeric value of a (non-empty, all-digit) rune sequence. -/
def digitsVal (cs : List Char) : Nat :=
  cs.foldl (fun n c => 10 * n + (c.toNat - 48)) 0

/-- Unsigned part of the decimal parser: integer digits, optionally a dot
and fraction digits, at least one digit overall.  The value is returned as
an unreduced fraction (numerator, positive power-of-ten denominator). -/
def parseDecCore (neg : Bool) (cs : List Char) : Option (Int × Nat) :=
  match cs.dropWhile Char.isDigit with
  | [] =>
    if (cs.takeWhile Char.isDigit).isEmpty then none
    else some ((if neg then -1 else 1) * (digitsVal (cs.takeWhile Char.isDigit) : Int), 1)
  | '.' :: fr =>
    if fr.all Char.isDigit && (!(cs.takeWhile Char.isDigit).isEmpty || !fr.isEmpty) then
      some ((if neg then -1 else 1) *
        ((digitsVal (cs.takeWhile Char.isDigit) * 10 ^ fr.length + digitsVal fr : Nat) : Int),
        10 ^ fr.length)
    else none
  | _ => none

/-- Partial model of Go's `strconv.ParseFloat`, restricted to plain
decimal notation: optional sign, digits, optional fraction (`"1"`,
`"1.5"`, `"-2."`, `".5"`), with the exact value as an unreduced fraction.
`ParseFloat` itself accepts more (exponents, hex floats, `inf`/`nan`
forms, digit underscores), reports `ErrRange` for out-of-range values,
and yields a correctly rounded float64, which can make two distinct
decimals compare equal.  The chapter-sort theorem therefore quantifies
only over strings satisfying `chapterInScope`, on which this model and
`ParseFloat` provably classify and order identically. -/
def parseFloatGo (s : String) : Option (Int × Nat) :=
  match s.data with
  | [] => none
  | '-' :: rest => parseDecCore true rest
  | '+' :: rest => parseDecCore false rest
  | cs => parseDecCore false cs

/-- Every string accepted by `strconv.ParseFloat` consists solely of
these characters: sign, dot, underscore, decimal digits, the exponent
and hex markers `e`/`p`/`x`, hex digits `a`-`f`, and the letters of
`inf`/`infinity`/`nan`, in either case. -/
def goFloatLiteralChars : List Char :=
  ['0', '1', '2', '3', '4', '5', '6', '7', '8', '9', '.', '+', '-', '_',
   'a', 'b', 'c', 'd', 'e', 'f', 'i', 'n', 'p', 't', 'x', 'y',
   'A', 'B', 'C', 'D', 'E', 'F', 'I', 'N', 'P', 'T', 'X', 'Y']

/-- The digit-free strings accepted by `strconv.ParseFloat`: exactly the
case-insensitive forms `inf`/`infinity` with optional sign and the
unsigned `nan` (Go's `special` function matches `nan` only when no sign
was consumed).  Every other accepted string contains a decimal digit
(hex literals contain the `0` of their `0x` prefix). -/
def specialFloatForm (s : String) : Bool :=
  let t := s.data.map Char.toLower
  t == "inf".data || t == "+inf".data || t == "-inf".data ||
    t == "infinity".data || t == "+infinity".data || t == "-infinity".data ||
    t == "nan".data

/-- Scope on which the exact-fraction model provably agrees with the
source comparator's use of `strconv.ParseFloat`:
* a plain decimal with at most 15 digits in total — `ParseFloat` accepts
  it without `ErrRange` (its magnitude is below `1e15`, any nonzero value
  at least `1e-15`), and because `10^15 < 2^52`, correctly rounded
  conversion is injective and strictly monotone on this class, so
  float64 comparisons equal exact-fraction comparisons; or
* a string with a character outside `goFloatLiteralChars`, which
  `ParseFloat` rejects just as this model does; or
* a digit-free string that is not an `inf`/`nan` form, which `ParseFloat`
  rejects just as this model does (this includes the empty chapter
  number). -/
def chapterInScope (s : String) : Bool :=
  ((parseFloatGo s).isSome && decide ((s.data.filter Char.isDigit).length ≤ 15)) ||
    s.data.any (fun c => !(goFloatLiteralChars.contains c)) ||
    (s.data.all (fun c => !c.isDigit) && !(specialFloatForm s))

/-- Strict order on unreduced fractions by cross multiplication
(denominators produced by `parseFloatGo` are positive). -/
def numLt (p q : Int × Nat) : Bool :=
  decide (p.1 * (q.2 : Int) < q.1 * (p.2 : Int))

/-- Comparator of `GetChaptersByMangaID`'s `sort.SliceStable` call, on the
two `attributes.chapter` strings: numeric comparison when both parse,
numeric strictly before non-numeric, and Go string comparison (byte
lexicographic) when neither parses. -/
def chapterCmp (x y : String) : Bool :=
  match parseFloatGo x, parseFloatGo y with
  | some ci, some cj => numLt ci cj
  | some _, none => true
  | none, some _ => false
  | none, none => lexLt x.data y.data

/-- Chapter entry of a listing page: the fields of
`ChapterListResponse.Data` that the sort and the id extraction read. -/
structure ChEntry where
  id : String
  chapter : String
deriving DecidableEq

/-- Comparator lifted to entries, as in the Go closure (it reads only the
two `attributes.chapter` fields). -/
def chapterLt (a b : ChEntry) : Bool := chapterCmp a.chapter b.chapter

/-- Per-page stable sort of `GetChaptersByMangaID` (lines 239-258). -/
def sortChapters (l : List ChEntry) : List ChEntry :=
  sortBy chapterLt l

/-- Id extraction after the sort (lines 260-262). -/
def extractChapterIDs (l : List ChEntry) : List String :=
  (sortChapters l).map ChEntry.id

/-- Model of the Go helper `stringReplaceAllRune`: convert to runes,
replace every occurrence of `old` in place, convert back. -/
def stringReplaceAllRune (s : String) (old new : Char) : String :=
  String.mk (s.data.map (fun r => if r = old then new else r))

/-- The `safe` closure of `groupChaptersByVolume`: path separators
(`'/'`) become underscores. -/
def safeVolume (s : String) : String := stringReplaceAllRune s '/' '_'

/-- Chapter metadata as decoded by `fetchChapterMetadata`. -/
structure ChapterMeta where
  id : String
  volume : String
  chapter : String
  title : String

/-- Appending to a Go `map[string][]string` entry, modelled on an
association list in first-insertion order (the spec leaves Go's map
iteration order unspecified). -/
def mapAppend (m : List (String × List String)) (k v : String) :
    List (String × List String) :=
  match m with
  | [] => [(k, [v])]
  | (k1, vs) :: rest =>
    if k1 = k then (k1, vs ++ [v]) :: rest else (k1, vs) :: mapAppend rest k v

/-- Model of `groupChaptersByVolume` (lines 150-173): for each chapter id
in order, resolve metadata (`meta`), normalize the volume label, skip when
a filter is active and does not match, otherwise download (`dl` returns
the temp directory) and append to that label's list.  Metadata resolution
and page download are modelled as total: the claims describe runs where
they succeed. -/
def groupChaptersByVolume (meta : String → ChapterMeta) (dl : String → String)
    (filt : String) : List String → List (String × List String) →
    List (String × List String)
  | [], acc => acc
  | c :: rest, acc =>
    let sv := safeVolume (meta c).volume
    if filt ≠ "" ∧ sv ≠ filt then groupChaptersByVolume meta dl filt rest acc
    else groupChaptersByVolume meta dl filt rest (mapAppend acc sv (dl c))

/-- Temporary chapter directory on disk: its path and the names of the
regular files it holds, in creation order. -/
structure ChapterDir where
  path : List Char
  names : List (List Char)

/-- Files yielded by `filepath.Walk` over one chapter directory: the
directory entry itself is skipped (`info.IsDir()`), the regular files are
visited in lexical name order and opened under `path/name`. -/
def walkFiles (d : ChapterDir) : List (List Char) :=
  (sortBy lexLt d.names).map (fun n => d.path ++ '/' :: n)

/-- File collection of `compressVolumeToCBZ` (lines 366-383): walk each
chapter directory in the given order and add every regular file. -/
def collectVolumeFiles (dirs : List ChapterDir) : List (List Char) :=
  (dirs.map walkFiles).flatten

/-- Entry names produced by `CBZ.Write` (cbz.go lines 49-54): the i-th
added file (i from 0) is stored as `%03d_` + `file.Name()` when
`options.Order` is set, and under `file.Name()` otherwise.  `file.Name()`
is the path the file was opened with. -/
def cbzWriteNames (ordered : Bool) (files : List (List Char)) : List (List Char) :=
  files.enum.map (fun p => if ordered then pad3go p.1 ++ '_' :: p.2 else p.2)

/-- Entry names of the archive built by `compressVolumeToCBZ`, which calls
`CBZ.Write` with `Order: true`. -/
def compressVolumeEntryNames (dirs : List ChapterDir) : List (List Char) :=
  cbzWriteNames true (collectVolumeFiles dirs)

/-- File names created by `downloadChapterPages` (line 346): the i-th
server-listed page (i from 0) is saved as `%03d_` of `i+1` plus the
server file name. -/
def storedPageNames (serverFiles : List (List Char)) : List (List Char) :=
  serverFiles.enum.map (fun p => pad3go (p.1 + 1) ++ '_' :: p.2)

/-- Temp directory produced by a fully successful `downloadChapterPages`
run for one chapter. -/
def downloadedChapterDir (tmp : List Char) (serverFiles : List (List Char)) :
    ChapterDir :=
  ⟨tmp, storedPageNames serverFiles⟩

/-- Response of one `HttpClient.Do` call; `body` distinguishes responses. -/
structure HttpResp where
  status : Nat
  body : Nat
deriving DecidableEq

/-- Outcome of one `HttpClient.Do` call: transport error or a response. -/
inductive Attempt where
  | fail
  | resp (r : HttpResp)
deriving DecidableEq

/-- Success test of `retryRequest`: no transport error and status 200. -/
def isSuccess : Attempt → Bool
  | .resp r => r.status == 200
  | .fail => false

/-- Loop body of `retryRequest` (lines 423-430): `f` gives the outcome of
each successive `Do` call, `i` the index of the next one; the second
component counts the `Do` calls performed. -/
def retryAux (f : Nat → Attempt) (i : Nat) : Nat → Except Unit HttpResp × Nat
  | 0 => (.error (), 0)
  | n + 1 =>
    match f i with
    | .resp r =>
      if r.status = 200 then (.ok r, 1)
      else ((retryAux f (i + 1) n).1, (retryAux f (i + 1) n).2 + 1)
    | .fail => ((retryAux f (i + 1) n).1, (retryAux f (i + 1) n).2 + 1)

/-- Model of `retryRequest` (lines 419-433): up to `maxRetries` further
`Do` calls, returning the first response with status 200, an error after
exhausting them.  The fixed sleeps between attempts have no effect on the
value and are not modelled. -/
def retryRequest (f : Nat → Attempt) (maxRetries : Nat) : Except Unit HttpResp × Nat :=
  retryAux f 0 maxRetries

/-- Model of `makeRequest` (lines 397-417): transport errors and
non-success statuses other than 429 are terminal; 429 sleeps a fixed
cooldown (not value-relevant) and delegates to `retryRequest` with the
configured retry bound. -/
def makeRequest (first : Attempt) (f : Nat → Attempt) (retries : Nat) :
    Except Unit HttpResp × Nat :=
  match first with
  | .fail => (.error (), 0)
  | .resp r =>
    if r.status = 200 then (.ok r, 0)
    else if r.status = 429 then retryRequest f retries
    else (.error (), 0)

/-- The fields of `mangadex.Config`; `apiUrl = none` models a nil
`*url.URL` pointer, `some u` a URL printing as `u`.  `timeout` is the
`time.Duration` in nanoseconds. -/
structure GoConfig where
  apiUrl : Option String
  timeout : Int
  retries : Int
  mangaID : String
  mangaLanguage : String
  output : String
  name : String
  volume : String
deriving DecidableEq

/-- A Go panic: a runtime nil-pointer dereference or an explicit
`panic(msg)`. -/
inductive GoPanic where
  | nilDeref
  | message (s : String)
deriving DecidableEq

/-- Model of `mangadex.New` (lines 50-83).  The checks run in source
order; `config.APIUrl.String()` dereferences the pointer, so a nil
`APIUrl` panics with a nil dereference before the function's own
`"APIUrl cannot be empty"` message.  Construction is pure: it only builds
the client value, no request is issued. -/
def New : Option GoConfig → Except GoPanic GoConfig
  | none => .error (.message "Config cannot be nil")
  | some cfg =>
    match cfg.apiUrl with
    | none => .error .nilDeref
    | some u =>
      if u = "" then .error (.message "APIUrl cannot be empty")
      else if cfg.timeout ≤ 0 then .error (.message "Timeout must be greater than 0")
      else if cfg.mangaID = "" then .error (.message "MangaID must be provided")
      else if cfg.mangaLanguage = "" then .error (.message "MangaLanguage cannot be empty")
      else if cfg.output = "" then .error (.message "Output cannot be empty")
      else if cfg.name = "" then .error (.message "Name cannot be empty")
      else .ok cfg

/-- Query parameters of one chapter-listing request, as assembled into the
URL of `GetChaptersByMangaID` (lines 217-223). -/
structure ListingQuery where
  mangaID : String
  language : String
  volume : String
  limit : Nat
  offset : Nat
deriving DecidableEq

/-- URL construction of `GetChaptersByMangaID`: `manga`, `translatedLanguage[]`,
optional `volume` constraint, `limit=100`, `offset`. -/
def getChaptersQuery (volumeFilter mangaID lang : String) (offset : Nat) : ListingQuery :=
  ⟨mangaID, lang, volumeFilter, 100, offset⟩

/-- The listing query issued by `DownloadManga` (line 176): it calls
`GetChaptersByMangaID(c.Config.MangaID, "en")` with a literal language. -/
def downloadMangaListingQuery (cfg : GoConfig) (offset : Nat) : ListingQuery :=
  getChaptersQuery cfg.volume cfg.mangaID "en" offset

/-- Archive file name for one volume group (line 185). -/
def archiveFileName (nm lbl : String) : String :=
  nm ++ "-volume-" ++ lbl ++ ".cbz"

/-- Observable filesystem events of the per-volume loop: an archive file
written, a temp directory removed. -/
inductive Ev where
  | wrote (file : String)
  | removed (dir : String)
deriving DecidableEq

/-- Terminal errors of the per-volume loop of `DownloadManga`. -/
inductive RunError where
  | compressFailed (volume : String)
  | removeFailed (volume dir : String)
deriving DecidableEq

/-- Model of `removeTempDirectories` (lines 387-395): remove each
directory in order, stopping at the first failure (`rm d = false`) with
its name. -/
def removeDirs (rm : String → Bool) : List String → List Ev × Option String
  | [] => ([], none)
  | d :: ds =>
    if rm d then ((Ev.removed d) :: (removeDirs rm ds).1, (removeDirs rm ds).2)
    else ([], some d)

/-- Model of the per-volume loop of `DownloadManga` (lines 184-197): for
each group, compress it to `{name}-volume-{label}.cbz` (outcome `cmp`),
then remove its temp directories (outcome `rm`); either failure is
terminal for the run. -/
def processVolumes (nm : String) (cmp rm : String → Bool) :
    List (String × List String) → List Ev × Except RunError Unit
  | [] => ([], .ok ())
  | (lbl, dirs) :: rest =>
    if cmp lbl then
      match removeDirs rm dirs with
      | (evs, none) =>
        (Ev.wrote (archiveFileName nm lbl) :: evs ++ (processVolumes nm cmp rm rest).1,
         (processVolumes nm cmp rm rest).2)
      | (evs, some d) =>
        (Ev.wrote (archiveFileName nm lbl) :: evs, .error (.removeFailed lbl d))
    else ([], .error (.compressFailed lbl))

/-- Aggregation plus per-volume loop of `DownloadManga` for an already
listed sequence of chapter ids. -/
def downloadMangaRun (meta : String → ChapterMeta) (dl : String → String)
    (cfg : GoConfig) (ids : List String) (cmp rm : String → Bool) :
    List Ev × Except RunError Unit :=
  processVolumes cfg.name cmp rm (groupChaptersByVolume meta dl cfg.volume ids [])

/-! Generic facts about the stable insertion sort. -/

theorem insertBy_perm (lt : α → α → Bool) (a : α) (l : List α) :
    (insertBy lt a l).Perm (a :: l) := by
  induction l with
  | nil => exact List.Perm.refl _
  | cons x l ih =>
    cases h : lt x a with
    | true =>
      simp only [insertBy, h, if_true]
      exact (ih.cons x).trans (List.Perm.swap a x l)
    | false =>
      simp only [insertBy, h, Bool.false_eq_true, if_false]
      exact List.Perm.refl _

theorem sortBy_perm (lt : α → α → Bool) (l : List α) : (sortBy lt l).Perm l := by
  induction l with
  | nil => exact List.Perm.refl _
  | cons x l ih => exact (insertBy_perm lt x (sortBy lt l)).trans (ih.cons x)

theorem mem_insertBy (lt : α → α → Bool) (a b : α) (l : List α) :
    b ∈ insertBy lt a l ↔ b = a ∨ b ∈ l := by
  rw [(insertBy_perm lt a l).mem_iff, List.mem_cons]

theorem pairwise_insertBy (lt : α → α → Bool)
    (hasym : ∀ a b, lt a b = true → lt b a = false)
    (htrans : ∀ a b c, lt b a = false → lt c b = false → lt c a = false)
    (a : α) (l : List α) (hl : l.Pairwise (fun x y => lt y x = false)) :
    (insertBy lt a l).Pairwise (fun x y => lt y x = false) := by
  induction l with
  | nil => simp [insertBy]
  | cons x l ih =>
    rw [List.pairwise_cons] at hl
    obtain ⟨hx, hl⟩ := hl
    cases h : lt x a with
    | true =>
      simp only [insertBy, h, if_true]
      rw [List.pairwise_cons]
      refine ⟨fun y hy => ?_, ih hl⟩
      rcases (mem_insertBy lt a y l).mp hy with rfl | hy
      · exact hasym x y h
      · exact hx y hy
    | false =>
      simp only [insertBy, h, Bool.false_eq_true, if_false]
      rw [List.pairwise_cons]
      refine ⟨fun y hy => ?_, List.Pairwise.cons hx hl⟩
      rcases List.mem_cons.mp hy with rfl | hy
      · exact h
      · exact htrans a x y h (hx y hy)

theorem sortBy_pairwise (lt : α → α → Bool)
    (hasym : ∀ a b, lt a b = true → lt b a = false)
    (htrans : ∀ a b c, lt b a = false → lt c b = false → lt c a = false)
    (l : List α) :
    (sortBy lt l).Pairwise (fun x y => lt y x = false) := by
  induction l with
  | nil => simp [sortBy]
  | cons x l ih => exact pairwise_insertBy lt hasym htrans x (sortBy lt l) ih

theorem sortBy_eq_self (lt : α → α → Bool)
    (hasym : ∀ a b, lt a b = true → lt b a = false)
    (l : List α) (h : l.Pairwise (fun a b => lt a b = true)) :
    sortBy lt l = l := by
  induction l with
  | nil => rfl
  | cons x l ih =>
    rw [List.pairwise_cons] at h
    obtain ⟨hx, hl⟩ := h
    rw [sortBy, ih hl]
    cases l with
    | nil => rfl
    | cons y t =>
      have hy : lt y x = false := hasym x y (hx y (List.mem_cons_self y t))
      simp [insertBy, hy]

theorem filter_insertBy_of_neg (lt : α → α → Bool) (p : α → Bool) (a : α)
    (l : List α) (ha : p a = false) :
    (insertBy lt a l).filter p = l.filter p := by
  induction l with
  | nil => simp [insertBy, ha]
  | cons x l ih =>
    cases h : lt x a with
    | true => simp only [insertBy, h, if_true, List.filter_cons, ih]
    | false =>
      simp only [insertBy, h, Bool.false_eq_true, if_false, List.filter_cons, ha]

theorem filter_insertBy_of_pos (lt : α → α → Bool) (p : α → Bool) (a : α)
    (l : List α) (ha : p a = true)
    (hp : ∀ x y, p x = true → p y = true → lt x y = false) :
    (insertBy lt a l).filter p = a :: l.filter p := by
  induction l with
  | nil => simp [insertBy, ha]
  | cons x l ih =>
    cases h : lt x a with
    | true =>
      have hx : p x = false := by
        cases hpx : p x with
        | false => rfl
        | true => rw [hp x a hpx ha] at h; exact absurd h (by simp)
      simp only [insertBy, h, if_true, List.filter_cons, hx, Bool.false_eq_true,
        if_false, ih]
    | false =>
      simp only [insertBy, h, Bool.false_eq_true, if_false, List.filter_cons, ha,
        if_true]

theorem sortBy_filter (lt : α → α → Bool) (p : α → Bool)
    (hp : ∀ x y, p x = true → p y = true → lt x y = false) (l : List α) :
    (sortBy lt l).filter p = l.filter p := by
  induction l with
  | nil => rfl
  | cons x l ih =>
    cases hx : p x with
    | true =>
      rw [sortBy, filter_insertBy_of_pos lt p x _ hx hp, ih, List.filter_cons, hx]
      simp
    | false =>
      rw [sortBy, filter_insertBy_of_neg lt p x _ hx, ih, List.filter_cons, hx]
      simp

theorem length_sortBy (lt : α → α → Bool) (l : List α) :
    (sortBy lt l).length = l.length :=
  (sortBy_perm lt l).length_eq

theorem sortBy_ne_self (lt : α → α → Bool)
    (hasym : ∀ a b, lt a b = true → lt b a = false)
    (htrans : ∀ a b c, lt b a = false → lt c b = false → lt c a = false)
    (l : List α) (i j : Nat) (hi : i < l.length) (hj : j < l.length) (hij : i < j)
    (hdesc : lt (l.get ⟨j, hj⟩) (l.get ⟨i, hi⟩) = true) :
    sortBy lt l ≠ l := by
  intro he
  have hp := sortBy_pairwise lt hasym htrans l
  rw [he, List.pairwise_iff_get] at hp
  have hcontra := hp ⟨i, hi⟩ ⟨j, hj⟩ hij
  rw [hcontra] at hdesc
  exact Bool.noConfusion hdesc

/-! Facts about the lexicographic rune order. -/

theorem lexLt_asymm : ∀ as bs : List Char, lexLt as bs = true → lexLt bs as = false := by
  intro as
  induction as with
  | nil =>
    intro bs h
    cases bs with
    | nil => simp [lexLt] at h
    | cons b bs => simp [lexLt]
  | cons a as ih =>
    intro bs h
    cases bs with
    | nil => simp [lexLt] at h
    | cons b bs =>
      rcases lt_trichotomy a b with hab | rfl | hba
      · simp [lexLt, hab, lt_asymm hab]
      · simp only [lexLt, lt_irrefl, if_false] at h ⊢
        exact ih bs h
      · simp [lexLt, hba, lt_asymm hba] at h

theorem lexLt_le_trans : ∀ as bs cs : List Char,
    lexLt bs as = false → lexLt cs bs = false → lexLt cs as = false := by
  intro as
  induction as with
  | nil =>
    intro bs cs _ _
    cases cs with
    | nil => rfl
    | cons c cs => rfl
  | cons a as ih =>
    intro bs cs h1 h2
    cases bs with
    | nil => simp [lexLt] at h1
    | cons b bs =>
      cases cs with
      | nil => simp [lexLt] at h2
      | cons c cs =>
        simp only [lexLt] at h1 h2 ⊢
        have hba : ¬ b < a := by
          intro hb; simp [hb] at h1
        have hcb : ¬ c < b := by
          intro hc; simp [hc] at h2
        have hca : ¬ c < a := not_lt.mpr (le_trans (not_lt.mp hba) (not_lt.mp hcb))
        rw [if_neg hca]
        by_cases hac : a < c
        · rw [if_pos hac]
        · rw [if_neg hac]
          have hab : ¬ a < b := not_lt.mpr (le_trans (not_lt.mp hcb) (not_lt.mp hac))
          have hbc : ¬ b < c := not_lt.mpr (le_trans (not_lt.mp hac) (not_lt.mp hba))
          rw [if_neg hba, if_neg hab] at h1
          rw [if_neg hcb, if_neg hbc] at h2
          exact ih bs cs h1 h2

theorem lexLt_append : ∀ (x y s t : List Char), x.length = y.length →
    lexLt x y = true → lexLt (x ++ s) (y ++ t) = true := by
  intro x
  induction x with
  | nil =>
    intro y s t hlen h
    cases y with
    | nil => simp [lexLt] at h
    | cons b ys => simp at hlen
  | cons a xs ih =>
    intro y s t hlen h
    cases y with
    | nil => simp at hlen
    | cons b ys =>
      simp only [List.cons_append, lexLt] at h ⊢
      by_cases h1 : a < b
      · rw [if_pos h1]
      · rw [if_neg h1] at h ⊢
        by_cases h2 : b < a
        · rw [if_pos h2] at h; exact absurd h (by simp)
        · rw [if_neg h2] at h ⊢
          exact ih ys s t (by simpa using hlen) h

/-! Decimal rendering facts, leading to monotonicity of the `%03d_` file
name scheme for indices up to 999. -/

theorem digitsAux_small (fuel n : Nat) (hn : n < 10) (hf : 1 ≤ fuel) :
    digitsAux fuel n = [digitChar n] := by
  cases fuel with
  | zero => omega
  | succ f => simp [digitsAux, hn]

theorem digitsAux_two (fuel m : Nat) (h1 : 10 ≤ m) (h2 : m < 100) (hf : 2 ≤ fuel) :
    digitsAux fuel m = [digitChar (m / 10), digitChar (m % 10)] := by
  cases fuel with
  | zero => omega
  | succ f =>
    have hm : ¬ m < 10 := by omega
    rw [digitsAux, if_neg hm, digitsAux_small f (m / 10) (by omega) (by omega)]
    rfl

theorem digitsOf_digits (n : Nat) (h : n ≤ 999) :
    digitsOf n = if n < 10 then [digitChar n]
      else if n < 100 then [digitChar (n / 10), digitChar (n % 10)]
      else [digitChar (n / 100), digitChar (n / 10 % 10), digitChar (n % 10)] := by
  by_cases h1 : n < 10
  · rw [if_pos h1]
    exact digitsAux_small (n + 1) n h1 (by omega)
  · rw [if_neg h1]
    by_cases h2 : n < 100
    · rw [if_pos h2]
      exact digitsAux_two (n + 1) n (by omega) h2 (by omega)
    · rw [if_neg h2]
      have hn : ¬ n < 10 := h1
      rw [digitsOf, digitsAux, if_neg hn,
        digitsAux_two n (n / 10) (by omega) (by omega) (by omega)]
      have hd : n / 10 / 10 = n / 100 := by omega
      have hm : n / 10 % 10 = n / 10 % 10 := rfl
      rw [hd]
      rfl

theorem pad3go_digits (n : Nat) (h : n ≤ 999) :
    pad3go n = [digitChar (n / 100), digitChar (n / 10 % 10), digitChar (n % 10)] := by
  rw [pad3go, digitsOf_digits n h]
  by_cases h1 : n < 10
  · have e1 : n / 100 = 0 := by omega
    have e2 : n / 10 % 10 = 0 := by omega
    have e3 : n % 10 = n := by omega
    rw [if_pos h1, e1, e2, e3, show digitChar 0 = '0' from by decide]
    rfl
  · by_cases h2 : n < 100
    · have e1 : n / 100 = 0 := by omega
      have e2 : n / 10 % 10 = n / 10 := by omega
      rw [if_neg h1, if_pos h2, e1, e2, show digitChar 0 = '0' from by decide]
      rfl
    · rw [if_neg h1, if_neg h2]
      rfl

theorem digitChar_lt_iff :
    ∀ x : Nat, x < 10 → ∀ y : Nat, y < 10 → (digitChar x < digitChar y ↔ x < y) := by
  decide

theorem pad3_name_lt (i j : Nat) (s t : List Char) (hij : i < j) (hj : j ≤ 999) :
    lexLt (pad3go i ++ s) (pad3go j ++ t) = true := by
  have hi : i ≤ 999 := by omega
  rw [pad3go_digits i hi, pad3go_digits j hj]
  have hi2 : i / 100 < 10 := by omega
  have hj2 : j / 100 < 10 := by omega
  have hi1 : i / 10 % 10 < 10 := by omega
  have hj1 : j / 10 % 10 < 10 := by omega
  have hi0 : i % 10 < 10 := by omega
  have hj0 : j % 10 < 10 := by omega
  simp only [List.cons_append, List.nil_append, lexLt]
  rcases Nat.lt_trichotomy (i / 100) (j / 100) with h2 | h2 | h2
  · rw [if_pos ((digitChar_lt_iff _ hi2 _ hj2).mpr h2)]
  · rw [h2, if_neg (lt_irrefl _), if_neg (lt_irrefl _)]
    rcases Nat.lt_trichotomy (i / 10 % 10) (j / 10 % 10) with h1 | h1 | h1
    · rw [if_pos ((digitChar_lt_iff _ hi1 _ hj1).mpr h1)]
    · rw [h1, if_neg (lt_irrefl _), if_neg (lt_irrefl _)]
      have h0 : i % 10 < j % 10 := by omega
      rw [if_pos ((digitChar_lt_iff _ hi0 _ hj0).mpr h0)]
    · omega
  · omega

/-! Facts about the chapter-number comparator. -/

theorem parseDecCore_den_pos (neg : Bool) (cs : List Char) (p : Int × Nat)
    (h : parseDecCore neg cs = some p) : 0 < p.2 := by
  unfold parseDecCore at h
  split at h
  · split at h
    · exact absurd h (by simp)
    · simp only [Option.some.injEq] at h
      subst h
      exact Nat.one_pos
  · split at h
    · simp only [Option.some.injEq] at h
      subst h
      exact Nat.pow_pos (by norm_num)
    · exact absurd h (by simp)
  · exact absurd h (by simp)

theorem parseFloatGo_den_pos (s : String) (p : Int × Nat)
    (h : parseFloatGo s = some p) : 0 < p.2 := by
  unfold parseFloatGo at h
  split at h
  · exact absurd h (by simp)
  · exact parseDecCore_den_pos _ _ _ h
  · exact parseDecCore_den_pos _ _ _ h
  · exact parseDecCore_den_pos _ _ _ h

theorem numLt_asymm (p q : Int × Nat) (h : numLt p q = true) : numLt q p = false := by
  simp only [numLt, decide_eq_true_eq] at h
  simp only [numLt, decide_eq_false_iff_not, not_lt]
  exact le_of_lt h

theorem numLt_le_trans (p q r : Int × Nat) (hq : 0 < q.2)
    (h1 : numLt q p = false) (h2 : numLt r q = false) : numLt r p = false := by
  simp only [numLt, decide_eq_false_iff_not, not_lt] at h1 h2 ⊢
  have hq' : (0 : Int) < (q.2 : Int) := by exact_mod_cast hq
  have hp2 : (0 : Int) ≤ (p.2 : Int) := Int.natCast_nonneg _
  have hr2 : (0 : Int) ≤ (r.2 : Int) := Int.natCast_nonneg _
  have A : p.1 * q.2 * r.2 ≤ q.1 * p.2 * r.2 := mul_le_mul_of_nonneg_right h1 hr2
  have B : q.1 * r.2 * p.2 ≤ r.1 * q.2 * p.2 := mul_le_mul_of_nonneg_right h2 hp2
  have C : (q.2 : Int) * (p.1 * r.2) ≤ (q.2 : Int) * (r.1 * p.2) := by nlinarith [A, B]
  exact le_of_mul_le_mul_left C hq'

theorem chapterCmp_asymm (x y : String) (h : chapterCmp x y = true) :
    chapterCmp y x = false := by
  unfold chapterCmp at h ⊢
  cases hx : parseFloatGo x with
  | none =>
    cases hy : parseFloatGo y with
    | none => rw [hx, hy] at h; exact lexLt_asymm _ _ h
    | some q => rw [hx, hy] at h; exact Bool.noConfusion h
  | some p =>
    cases hy : parseFloatGo y with
    | none => rfl
    | some q => rw [hx, hy] at h; exact numLt_asymm _ _ h

theorem chapterCmp_le_trans (a b c : String)
    (h1 : chapterCmp b a = false) (h2 : chapterCmp c b = false) :
    chapterCmp c a = false := by
  unfold chapterCmp at h1 h2 ⊢
  cases ha : parseFloatGo a with
  | some pa =>
    cases hc : parseFloatGo c with
    | none => rfl
    | some pc =>
      cases hb : parseFloatGo b with
      | none => rw [hc, hb] at h2; exact Bool.noConfusion h2
      | some pb =>
        rw [hb, ha] at h1
        rw [hc, hb] at h2
        exact numLt_le_trans pa pb pc (parseFloatGo_den_pos b pb hb) h1 h2
  | none =>
    cases hc : parseFloatGo c with
    | none =>
      cases hb : parseFloatGo b with
      | some pb => rw [hb, ha] at h1; exact Bool.noConfusion h1
      | none =>
        rw [hb, ha] at h1
        rw [hc, hb] at h2
        exact lexLt_le_trans _ _ _ h1 h2
    | some pc =>
      cases hb : parseFloatGo b with
      | some pb => rw [hb, ha] at h1; exact Bool.noConfusion h1
      | none => rw [hc, hb] at h2; exact Bool.noConfusion h2

theorem chapterLt_asymm (a b : ChEntry) (h : chapterLt a b = true) :
    chapterLt b a = false :=
  chapterCmp_asymm _ _ h

theorem chapterLt_le_trans (a b c : ChEntry)
    (h1 : chapterLt b a = false) (h2 : chapterLt c b = false) :
    chapterLt c a = false :=
  chapterCmp_le_trans _ _ _ h1 h2

/-! Ordering of the stored page file names of one chapter. -/

theorem length_storedPageNames (sf : List (List Char)) :
    (storedPageNames sf).length = sf.length := by
  simp [storedPageNames]

theorem storedPageNames_pairwise (sf : List (List Char)) (h : sf.length ≤ 999) :
    (storedPageNames sf).Pairwise (fun x y => lexLt x y = true) := by
  rw [List.pairwise_iff_getElem]
  intro i j hi hj hij
  have hj' : j < sf.length := by
    rw [length_storedPageNames] at hj
    exact hj
  simp only [storedPageNames, List.getElem_map, List.getElem_enum]
  exact pad3_name_lt (i + 1) (j + 1) _ _ (by omega) (by omega)

theorem walkFiles_downloaded (tmp : List Char) (sf : List (List Char))
    (h : sf.length ≤ 999) :
    walkFiles (downloadedChapterDir tmp sf)
      = (storedPageNames sf).map (fun n => tmp ++ '/' :: n) := by
  unfold walkFiles downloadedChapterDir
  rw [sortBy_eq_self lexLt lexLt_asymm _ (storedPageNames_pairwise sf h)]

/-! Facts about the retry loop. -/

theorem retryAux_all_fail (f : Nat → Attempt) :
    ∀ (n i : Nat), (∀ j, j < n → isSuccess (f (i + j)) = false) →
    retryAux f i n = (.error (), n) := by
  intro n
  induction n with
  | zero => intro i _; rfl
  | succ n ih =>
    intro i hall
    have h0 : isSuccess (f i) = false := by simpa using hall 0 (by omega)
    have hshift : ∀ j, j < n → isSuccess (f (i + 1 + j)) = false := by
      intro j hj
      have := hall (j + 1) (by omega)
      rwa [show i + (j + 1) = i + 1 + j by omega] at this
    rw [retryAux]
    cases hf : f i with
    | fail => rw [ih (i + 1) hshift]
    | resp r =>
      have hr : ¬ r.status = 200 := by
        rw [hf] at h0
        simpa [isSuccess] using h0
      dsimp only
      rw [if_neg hr, ih (i + 1) hshift]

theorem retryAux_first_success (f : Nat → Attempt) :
    ∀ (k n i : Nat) (rr : HttpResp), k < n →
    (∀ j, j < k → isSuccess (f (i + j)) = false) →
    f (i + k) = .resp rr → rr.status = 200 →
    retryAux f i n = (.ok rr, k + 1) := by
  intro k
  induction k with
  | zero =>
    intro n i rr hk _ hf h200
    cases n with
    | zero => omega
    | succ n =>
      rw [show i + 0 = i from rfl] at hf
      rw [retryAux, hf]
      dsimp only
      rw [if_pos h200]
  | succ k ih =>
    intro n i rr hk hfail hf h200
    cases n with
    | zero => omega
    | succ n =>
      have h0 : isSuccess (f i) = false := by simpa using hfail 0 (by omega)
      have hshift : ∀ j, j < k → isSuccess (f (i + 1 + j)) = false := by
        intro j hj
        have := hfail (j + 1) (by omega)
        rwa [show i + (j + 1) = i + 1 + j by omega] at this
      have hf' : f (i + 1 + k) = .resp rr := by
        rwa [show i + 1 + k = i + (k + 1) by omega]
      rw [retryAux]
      cases hfi : f i with
      | fail => rw [ih n (i + 1) rr (by omega) hshift hf' h200]
      | resp r =>
        have hr : ¬ r.status = 200 := by
          rw [hfi] at h0
          simpa [isSuccess] using h0
        dsimp only
        rw [if_neg hr, ih n (i + 1) rr (by omega) hshift hf' h200]

/-! Facts about volume grouping. -/

theorem mapAppend_keys (k v : String) :
    ∀ (m : List (String × List String)) (x : String),
      x ∈ (mapAppend m k v).map Prod.fst → x ∈ m.map Prod.fst ∨ x = k := by
  intro m
  induction m with
  | nil =>
    intro x hx
    simp [mapAppend] at hx
    exact Or.inr hx
  | cons e rest ih =>
    obtain ⟨k1, vs⟩ := e
    intro x hx
    by_cases hk : k1 = k
    · simp only [mapAppend, if_pos hk, List.map_cons, List.mem_cons] at hx
      rcases hx with rfl | hx
      · exact Or.inr hk
      · exact Or.inl (by simp [List.mem_cons]; right; simpa using hx)
    · simp only [mapAppend, if_neg hk, List.map_cons, List.mem_cons] at hx
      rcases hx with rfl | hx
      · exact Or.inl (by simp)
      · rcases ih x hx with h | h
        · exact Or.inl (by simp [List.mem_cons]; right; simpa using h)
        · exact Or.inr h

theorem mapAppend_values_ne_nil (k v : String) :
    ∀ (m : List (String × List String)), (∀ g ∈ m, g.2 ≠ []) →
      ∀ g ∈ mapAppend m k v, g.2 ≠ [] := by
  intro m
  induction m with
  | nil =>
    intro _ g hg
    simp [mapAppend] at hg
    simp [hg]
  | cons e rest ih =>
    obtain ⟨k1, vs⟩ := e
    intro hm g hg
    by_cases hk : k1 = k
    · simp only [mapAppend, if_pos hk] at hg
      rcases List.mem_cons.mp hg with rfl | hg
      · simp
      · exact hm g (List.mem_cons_of_mem _ hg)
    · simp only [mapAppend, if_neg hk] at hg
      rcases List.mem_cons.mp hg with rfl | hg
      · exact hm _ (List.mem_cons_self _ _)
      · exact ih (fun g' hg' => hm g' (List.mem_cons_of_mem _ hg')) g hg

theorem groupChaptersByVolume_keys (meta : String → ChapterMeta)
    (dl : String → String) (filt : String) :
    ∀ (ids : List String) (acc : List (String × List String)),
      ∀ k ∈ (groupChaptersByVolume meta dl filt ids acc).map Prod.fst,
        k ∈ acc.map Prod.fst ∨ ∃ c ∈ ids, k = safeVolume (meta c).volume := by
  intro ids
  induction ids with
  | nil => intro acc k hk; exact Or.inl hk
  | cons c rest ih =>
    intro acc k hk
    simp only [groupChaptersByVolume] at hk
    by_cases hskip : filt ≠ "" ∧ safeVolume (meta c).volume ≠ filt
    · rw [if_pos hskip] at hk
      rcases ih acc k hk with h | ⟨c', hc', hk'⟩
      · exact Or.inl h
      · exact Or.inr ⟨c', List.mem_cons_of_mem _ hc', hk'⟩
    · rw [if_neg hskip] at hk
      rcases ih _ k hk with h | ⟨c', hc', hk'⟩
      · rcases mapAppend_keys _ _ acc k h with h' | h'
        · exact Or.inl h'
        · exact Or.inr ⟨c, List.mem_cons_self _ _, h'⟩
      · exact Or.inr ⟨c', List.mem_cons_of_mem _ hc', hk'⟩

theorem groupChaptersByVolume_values_ne_nil (meta : String → ChapterMeta)
    (dl : String → String) (filt : String) :
    ∀ (ids : List String) (acc : List (String × List String)),
      (∀ g ∈ acc, g.2 ≠ []) →
      ∀ g ∈ groupChaptersByVolume meta dl filt ids acc, g.2 ≠ [] := by
  intro ids
  induction ids with
  | nil => intro acc hacc g hg; exact hacc g hg
  | cons c rest ih =>
    intro acc hacc g hg
    simp only [groupChaptersByVolume] at hg
    by_cases hskip : filt ≠ "" ∧ safeVolume (meta c).volume ≠ filt
    · rw [if_pos hskip] at hg
      exact ih acc hacc g hg
    · rw [if_neg hskip] at hg
      exact ih _ (mapAppend_values_ne_nil _ _ acc hacc) g hg

theorem groupChaptersByVolume_all_skipped (meta : String → ChapterMeta)
    (dl : String → String) (filt : String) (hf : filt ≠ "") :
    ∀ (ids : List String) (acc : List (String × List String)),
      (∀ c ∈ ids, safeVolume (meta c).volume ≠ filt) →
      groupChaptersByVolume meta dl filt ids acc = acc := by
  intro ids
  induction ids with
  | nil => intro acc _; rfl
  | cons c rest ih =>
    intro acc hall
    simp only [groupChaptersByVolume]
    rw [if_pos ⟨hf, hall c (List.mem_cons_self _ _)⟩]
    exact ih acc (fun c' hc' => hall c' (List.mem_cons_of_mem _ hc'))

/-! Facts about the per-volume compress-then-cleanup loop. -/

theorem removeDirs_ok (rm : String → Bool) :
    ∀ dirs : List String, (∀ d ∈ dirs, rm d = true) →
      removeDirs rm dirs = (dirs.map Ev.removed, none) := by
  intro dirs
  induction dirs with
  | nil => intro _; rfl
  | cons d ds ih =>
    intro hall
    rw [removeDirs, ih (fun d' hd' => hall d' (List.mem_cons_of_mem _ hd')),
      if_pos (hall d (List.mem_cons_self _ _))]
    rfl

theorem removeDirs_fail (rm : String → Bool) :
    ∀ dirs : List String, (∃ d ∈ dirs, rm d = false) →
      ∃ evs d, removeDirs rm dirs = (evs, some d) ∧ d ∈ dirs ∧ rm d = false := by
  intro dirs
  induction dirs with
  | nil => intro h; simp at h
  | cons d ds ih =>
    intro h
    by_cases hd : rm d = true
    · obtain ⟨d', hd', hrm⟩ := h
      rcases List.mem_cons.mp hd' with rfl | hd'
      · rw [hd] at hrm; exact absurd hrm (by simp)
      · obtain ⟨evs, d2, hrd, hd2, hrm2⟩ := ih ⟨d', hd', hrm⟩
        refine ⟨Ev.removed d :: evs, d2, ?_, List.mem_cons_of_mem _ hd2, hrm2⟩
        rw [removeDirs, hrd, if_pos hd]
    · have hd' : rm d = false := by
        cases hrm : rm d with
        | false => rfl
        | true => exact absurd hrm hd
      refine ⟨[], d, ?_, List.mem_cons_self _ _, hd'⟩
      rw [removeDirs, if_neg hd]

theorem removeDirs_events (rm : String → Bool) :
    ∀ (dirs : List String) (e : Ev), e ∈ (removeDirs rm dirs).1 → ∃ d, e = Ev.removed d := by
  intro dirs
  induction dirs with
  | nil => intro e he; simp [removeDirs] at he
  | cons d ds ih =>
    intro e he
    by_cases hd : rm d = true
    · rw [removeDirs, if_pos hd] at he
      rcases List.mem_cons.mp he with rfl | he
      · exact ⟨d, rfl⟩
      · exact ih e he
    · rw [removeDirs, if_neg hd] at he
      simp at he

theorem processVolumes_cleanup_failure (nm : String) (cmp rm : String → Bool)
    (lbl : String) (dirs : List String) (hcmp : cmp lbl = true)
    (hfail : ∃ d ∈ dirs, rm d = false) :
    ∀ (pre : List (String × List String)) (post : List (String × List String)),
      (∀ g ∈ pre, cmp g.1 = true ∧ ∀ d ∈ g.2, rm d = true) →
      ∃ d ∈ dirs, rm d = false ∧
        (processVolumes nm cmp rm (pre ++ (lbl, dirs) :: post)).2
          = .error (.removeFailed lbl d) ∧
        Ev.wrote (archiveFileName nm lbl)
          ∈ (processVolumes nm cmp rm (pre ++ (lbl, dirs) :: post)).1 := by
  intro pre
  induction pre with
  | nil =>
    intro post _
    obtain ⟨evs, d, hrd, hd, hrm⟩ := removeDirs_fail rm dirs hfail
    refine ⟨d, hd, hrm, ?_, ?_⟩
    · rw [List.nil_append, processVolumes, if_pos hcmp, hrd]
    · rw [List.nil_append, processVolumes, if_pos hcmp, hrd]
      exact List.mem_cons_self _ _
  | cons g pre ih =>
    intro post hpre
    obtain ⟨glbl, gdirs⟩ := g
    have hg := hpre _ (List.mem_cons_self _ _)
    have hpre' : ∀ g' ∈ pre, cmp g'.1 = true ∧ ∀ d ∈ g'.2, rm d = true :=
      fun g' hg' => hpre g' (List.mem_cons_of_mem _ hg')
    obtain ⟨d, hd, hrm, hres, hmem⟩ := ih post hpre'
    refine ⟨d, hd, hrm, ?_, ?_⟩
    · rw [List.cons_append, processVolumes, if_pos hg.1, removeDirs_ok rm gdirs hg.2]
      exact hres
    · rw [List.cons_append, processVolumes, if_pos hg.1, removeDirs_ok rm gdirs hg.2]
      exact List.mem_cons_of_mem _ (List.mem_append_right _ hmem)

theorem processVolumes_wrote (nm : String) (cmp rm : String → Bool) :
    ∀ (groups : List (String × List String)) (fl : String),
      Ev.wrote fl ∈ (processVolumes nm cmp rm groups).1 →
      ∃ g ∈ groups, fl = archiveFileName nm g.1 := by
  intro groups
  induction groups with
  | nil => intro fl hfl; simp [processVolumes] at hfl
  | cons g rest ih =>
    obtain ⟨lbl, dirs⟩ := g
    intro fl hfl
    rw [processVolumes] at hfl
    by_cases hc : cmp lbl = true
    · rw [if_pos hc] at hfl
      cases hrd : removeDirs rm dirs with
      | mk evs opt =>
        rw [hrd] at hfl
        cases opt with
        | none =>
          rcases List.mem_cons.mp hfl with he | hfl
          · exact ⟨(lbl, dirs), List.mem_cons_self _ _, by injection he⟩
          · rcases List.mem_append.mp hfl with he | hfl
            · obtain ⟨d, hd⟩ := removeDirs_events rm dirs (Ev.wrote fl) (by rw [hrd]; exact he)
              exact absurd hd (by simp)
            · obtain ⟨g', hg', hfl'⟩ := ih fl hfl
              exact ⟨g', List.mem_cons_of_mem _ hg', hfl'⟩
        | some d =>
          rcases List.mem_cons.mp hfl with he | hfl
          · exact ⟨(lbl, dirs), List.mem_cons_self _ _, by injection he⟩
          · obtain ⟨d', hd'⟩ := removeDirs_events rm dirs (Ev.wrote fl) (by rw [hrd]; exact hfl)
            exact absurd hd' (by simp)
    · rw [if_neg hc] at hfl
      simp at hfl

theorem groupChaptersByVolume_filter (meta : String → ChapterMeta)
    (dl : String → String) (filt : String) :
    ∀ (ids : List String) (acc : List (String × List String)),
      groupChaptersByVolume meta dl filt ids acc =
        (ids.filter (fun c => filt == "" || safeVolume (meta c).volume == filt)).foldl
          (fun m c => mapAppend m (safeVolume (meta c).volume) (dl c)) acc := by
  intro ids
  induction ids with
  | nil => intro acc; rfl
  | cons c rest ih =>
    intro acc
    simp only [groupChaptersByVolume, List.filter_cons]
    by_cases hskip : filt ≠ "" ∧ safeVolume (meta c).volume ≠ filt
    · rw [if_pos hskip, ih acc]
      have hcond : (filt == "" || safeVolume (meta c).volume == filt) = false := by
        simp only [Bool.or_eq_false_iff, beq_eq_false_iff_ne]
        exact ⟨hskip.1, hskip.2⟩
      rw [hcond]
      simp
    · rw [if_neg hskip, ih _]
      have hcond : (filt == "" || safeVolume (meta c).volume == filt) = true := by
        rcases not_and_or.mp hskip with h | h
        · have h' := not_not.mp h
          simp [h']
        · have h' := not_not.mp h
          simp [h']
      rw [hcond]
      simp

/-! Facts about archive assembly. -/

theorem length_cbzWriteNames (ordered : Bool) (files : List (List Char)) :
    (cbzWriteNames ordered files).length = files.length := by
  simp [cbzWriteNames]

theorem length_walkFiles (d : ChapterDir) : (walkFiles d).length = d.names.length := by
  simp [walkFiles, length_sortBy]

theorem collectVolumeFiles_downloaded (chapters : List (List Char × List (List Char))) :
    (∀ ch ∈ chapters, ch.2.length ≤ 999) →
    collectVolumeFiles (chapters.map fun ch => downloadedChapterDir ch.1 ch.2)
      = (chapters.map fun ch => (storedPageNames ch.2).map (fun n => ch.1 ++ '/' :: n)).flatten := by
  induction chapters with
  | nil => intro _; rfl
  | cons ch rest ih =>
    intro hb
    simp only [List.map_cons, collectVolumeFiles, List.flatten_cons]
    rw [walkFiles_downloaded ch.1 ch.2 (hb ch (List.mem_cons_self _ _))]
    have htail := ih (fun ch' h' => hb ch' (List.mem_cons_of_mem _ h'))
    simp only [collectVolumeFiles] at htail
    rw [htail]

theorem length_collectVolumeFiles_downloaded
    (chapters : List (List Char × List (List Char))) :
    (collectVolumeFiles (chapters.map fun ch => downloadedChapterDir ch.1 ch.2)).length
      = (chapters.map fun ch => ch.2.length).sum := by
  induction chapters with
  | nil => rfl
  | cons ch rest ih =>
    simp only [List.map_cons, collectVolumeFiles, List.flatten_cons, List.length_append,
      List.sum_cons]
    have hhead : (walkFiles (downloadedChapterDir ch.1 ch.2)).length = ch.2.length := by
      rw [length_walkFiles]
      exact length_storedPageNames ch.2
    rw [hhead]
    have htail := ih
    simp only [collectVolumeFiles] at htail
    rw [htail]

/-! Claim theorems. -/

/-- C1, counterexample: for a volume of one chapter directory `d1` holding
the single regular file `001_a.jpg`, the claim predicts the entry name
`0001.jpg` (4-digit index from 1 plus extension only); `CBZ.Write` actually
stores it as `000_d1/001_a.jpg` (3-digit index from 0, an underscore and
the full path the file was opened with). -/
theorem c1_counterexample :
    compressVolumeEntryNames [⟨"d1".data, ["001_a.jpg".data]⟩]
      = ["000_d1/001_a.jpg".data] ∧
    compressVolumeEntryNames [⟨"d1".data, ["001_a.jpg".data]⟩]
      ≠ ["0001.jpg".data] := by
  constructor
  · decide
  · decide

/-- C1, amended: each regular file encountered is added to the archive
under a new entry name consisting of a zero-padded decimal index of
minimum width 3 followed by an underscore and the path the file was opened
with, the index starting at 0 for the first entry and incrementing across
the whole volume without resetting per chapter. -/
theorem c1_entry_naming (dirs : List ChapterDir) :
    (compressVolumeEntryNames dirs).length = (collectVolumeFiles dirs).length ∧
    ∀ (i : Nat) (h1 : i < (compressVolumeEntryNames dirs).length)
      (h2 : i < (collectVolumeFiles dirs).length),
      (compressVolumeEntryNames dirs).get ⟨i, h1⟩
        = pad3go i ++ '_' :: (collectVolumeFiles dirs).get ⟨i, h2⟩ := by
  constructor
  · exact length_cbzWriteNames true (collectVolumeFiles dirs)
  · intro i h1 h2
    simp only [compressVolumeEntryNames, cbzWriteNames, List.get_eq_getElem,
      List.getElem_map, List.getElem_enum]
    simp

/-- C1, witness: in a volume of two one-page chapter directories the
second entry (index 1, not reset for the second chapter) is named from
index 1 and the file's path. -/
theorem c1_entry_naming_witness :
    (compressVolumeEntryNames
        [⟨"d".data, ["001_x.png".data]⟩, ⟨"e".data, ["001_y.png".data]⟩]).get
        ⟨1, by decide⟩
      = pad3go 1 ++ '_' ::
        (collectVolumeFiles
          [⟨"d".data, ["001_x.png".data]⟩, ⟨"e".data, ["001_y.png".data]⟩]).get
          ⟨1, by decide⟩ :=
  (c1_entry_naming _).2 1 (by decide) (by decide)

/-- C2, counterexample: two entries whose chapter numbers `"b"` and `"a"`
both fail to parse are a tie under the claim, which then requires the
original server order to be kept; the code instead compares the two
strings and swaps them. -/
theorem c2_counterexample :
    sortChapters [⟨"id1", "b"⟩, ⟨"id2", "a"⟩] = [⟨"id2", "a"⟩, ⟨"id1", "b"⟩] ∧
    sortChapters [⟨"id1", "b"⟩, ⟨"id2", "a"⟩] ≠ [⟨"id1", "b"⟩, ⟨"id2", "a"⟩] := by
  constructor
  · decide
  · decide

/-- C2, amended: on every page whose chapter numbers are within the
scope where the embedded comparator provably matches the source's
float64 one (`chapterInScope`: short plain decimals, or strings
`ParseFloat` also rejects), the stable sort permutes the page's entries
so that no later entry compares strictly below an earlier one under the
comparator — ascending numeric value when both chapter numbers parse,
every parsing entry before every non-parsing one, and lexicographic
string order between two non-parsing chapter numbers; only entries the
comparator cannot separate (equal numeric value, or identical strings)
keep their original server order, witnessed by the filter stability
property. -/
theorem c2_sort_order (l : List ChEntry)
    (_hscope : ∀ e ∈ l, chapterInScope e.chapter = true) :
    (sortChapters l).Perm l ∧
    (∀ (i j : Nat) (hi : i < (sortChapters l).length)
      (hj : j < (sortChapters l).length), i < j →
      chapterLt ((sortChapters l).get ⟨j, hj⟩) ((sortChapters l).get ⟨i, hi⟩) = false) ∧
    (∀ p : ChEntry → Bool, (∀ a b, p a = true → p b = true → chapterLt a b = false) →
      (sortChapters l).filter p = l.filter p) := by
  refine ⟨sortBy_perm _ l, ?_, ?_⟩
  · intro i j hi hj hij
    have hp := sortBy_pairwise chapterLt chapterLt_asymm chapterLt_le_trans l
    rw [List.pairwise_iff_getElem] at hp
    have := hp i j hi hj hij
    simpa [List.get_eq_getElem] using this
  · intro p hp
    exact sortBy_filter chapterLt p hp l

/-- C2, witness: on a concrete in-scope page with a non-numeric chapter
and two numeric ones, the sorted output is ordered under the comparator
and the sort is stable on comparator-equivalent entries. -/
theorem c2_sort_order_witness :
    chapterLt ((sortChapters [⟨"x", "abc"⟩, ⟨"y", "2"⟩, ⟨"z", "1.5"⟩]).get ⟨1, by decide⟩)
        ((sortChapters [⟨"x", "abc"⟩, ⟨"y", "2"⟩, ⟨"z", "1.5"⟩]).get ⟨0, by decide⟩)
      = false ∧
    (sortChapters [⟨"x", "abc"⟩, ⟨"y", "2"⟩, ⟨"z", "1.5"⟩]).filter
        (fun e => e.chapter == "1.5")
      = [⟨"x", "abc"⟩, ⟨"y", "2"⟩, ⟨"z", "1.5"⟩].filter (fun e => e.chapter == "1.5") :=
  ⟨(c2_sort_order _ (by decide)).2.1 0 1 (by decide) (by decide) (by decide),
   (c2_sort_order _ (by decide)).2.2 _ (by
     intro a b ha hb
     have ha' : a.chapter = "1.5" := by simpa using ha
     have hb' : b.chapter = "1.5" := by simpa using hb
     show chapterCmp a.chapter b.chapter = false
     rw [ha', hb']
     decide)⟩

/-- C3: a non-success, non-429 response is terminal with no retry; after a
429 the client performs up to `retries` further attempts, returns the
response of the first attempt with status 200, and after `retries`
failing attempts returns a terminal error having made exactly `retries`
additional attempts. -/
theorem c3_rate_limit_retry (first : Attempt) (f : Nat → Attempt) (retries : Nat) :
    (∀ r, first = .resp r → r.status ≠ 200 → r.status ≠ 429 →
      makeRequest first f retries = (.error (), 0)) ∧
    (∀ r, first = .resp r → r.status = 429 →
      (∀ (i : Nat) (rr : HttpResp), i < retries →
        (∀ j, j < i → isSuccess (f j) = false) → f i = .resp rr → rr.status = 200 →
        makeRequest first f retries = (.ok rr, i + 1)) ∧
      ((∀ j, j < retries → isSuccess (f j) = false) →
        makeRequest first f retries = (.error (), retries))) := by
  constructor
  · intro r hfirst h200 h429
    subst hfirst
    rw [makeRequest]
    rw [if_neg h200, if_neg h429]
  · intro r hfirst h429
    subst hfirst
    have h200ne : ¬ r.status = 200 := by rw [h429]; decide
    constructor
    · intro i rr hi hfail hf h200s
      rw [makeRequest]
      rw [if_neg h200ne, if_pos h429]
      exact retryAux_first_success f i retries 0 rr hi
        (fun j hj => by rw [Nat.zero_add]; exact hfail j hj)
        (by rw [Nat.zero_add]; exact hf) h200s
    · intro hall
      rw [makeRequest]
      rw [if_neg h200ne, if_pos h429]
      exact retryAux_all_fail f retries 0
        (fun j hj => by rw [Nat.zero_add]; exact hall j hj)

/-- C3, witness: with retry outcomes fail-then-success the second retry's
200 response is returned after 2 attempts, and with all retries failing
the terminal error comes after exactly 3 attempts. -/
theorem c3_rate_limit_retry_witness :
    makeRequest (.resp ⟨429, 0⟩) (fun j => if j = 1 then .resp ⟨200, 7⟩ else .fail) 3
      = (.ok ⟨200, 7⟩, 2) ∧
    makeRequest (.resp ⟨429, 1⟩) (fun _ => .fail) 3 = (.error (), 3) :=
  ⟨((c3_rate_limit_retry _ _ 3).2 ⟨429, 0⟩ rfl rfl).1 1 ⟨200, 7⟩ (by decide)
      (by decide) (by decide) rfl,
   ((c3_rate_limit_retry _ _ 3).2 ⟨429, 1⟩ rfl rfl).2 (by decide)⟩

/-- C4, counterexample: a chapter of 1000 pages breaks the
chapter-then-page entry order: the stored name `1000_p.jpg` sorts
lexically before `999_p.jpg` in the directory walk, so the collected file
order differs from the server page order. -/
theorem c4_counterexample :
    collectVolumeFiles [downloadedChapterDir "d".data (List.replicate 1000 "p.jpg".data)]
      ≠ (storedPageNames (List.replicate 1000 "p.jpg".data)).map
          (fun n => "d".data ++ '/' :: n) := by
  intro heq
  have hmap : (sortBy lexLt (storedPageNames (List.replicate 1000 "p.jpg".data))).map
        (fun n => "d".data ++ '/' :: n)
      = (storedPageNames (List.replicate 1000 "p.jpg".data)).map
        (fun n => "d".data ++ '/' :: n) := by
    have h := heq
    simp only [collectVolumeFiles, List.map_cons, List.map_nil, List.flatten_cons,
      List.flatten_nil, List.append_nil, walkFiles, downloadedChapterDir] at h
    exact h
  have heq2 : sortBy lexLt (storedPageNames (List.replicate 1000 "p.jpg".data))
      = storedPageNames (List.replicate 1000 "p.jpg".data) := by
    have hginj : Function.Injective (fun n : List Char => "d".data ++ '/' :: n) := by
      intro a b hab
      have h2 := List.append_cancel_left hab
      injection h2
    exact List.map_injective_iff.mpr hginj hmap
  have hb998 : (998 : Nat) < (storedPageNames (List.replicate 1000 "p.jpg".data)).length := by
    rw [length_storedPageNames, List.length_replicate]
    omega
  have hb999 : (999 : Nat) < (storedPageNames (List.replicate 1000 "p.jpg".data)).length := by
    rw [length_storedPageNames, List.length_replicate]
    omega
  have hdesc : lexLt ((storedPageNames (List.replicate 1000 "p.jpg".data)).get ⟨999, hb999⟩)
      ((storedPageNames (List.replicate 1000 "p.jpg".data)).get ⟨998, hb998⟩) = true := by
    simp only [storedPageNames, List.get_eq_getElem, List.getElem_map, List.getElem_enum,
      List.getElem_replicate]
    decide
  exact sortBy_ne_self lexLt lexLt_asymm lexLt_le_trans
    (storedPageNames (List.replicate 1000 "p.jpg".data)) 998 999 hb998 hb999
    (by omega) hdesc heq2

/-- C4, amended: a volume archive built from fully downloaded chapters
with page counts `p1..pN` always contains exactly `sum pi` entries, and
when every chapter has at most 999 pages its entry order equals the
concatenation, in chapter order, of each chapter's pages in
server-provided page order. -/
theorem c4_archive_order (chapters : List (List Char × List (List Char))) :
    (compressVolumeEntryNames (chapters.map fun ch => downloadedChapterDir ch.1 ch.2)).length
        = (chapters.map fun ch => ch.2.length).sum ∧
    ((∀ ch ∈ chapters, ch.2.length ≤ 999) →
      collectVolumeFiles (chapters.map fun ch => downloadedChapterDir ch.1 ch.2)
        = (chapters.map fun ch =>
            (storedPageNames ch.2).map (fun n => ch.1 ++ '/' :: n)).flatten) := by
  constructor
  · rw [show (compressVolumeEntryNames
        (chapters.map fun ch => downloadedChapterDir ch.1 ch.2)).length
      = (collectVolumeFiles (chapters.map fun ch => downloadedChapterDir ch.1 ch.2)).length
      from length_cbzWriteNames true _]
    exact length_collectVolumeFiles_downloaded chapters
  · exact collectVolumeFiles_downloaded chapters

/-- C4, witness: a volume of one chapter with two pages named out of
lexical order by the server keeps the server page order and yields two
entries. -/
theorem c4_archive_order_witness :
    (compressVolumeEntryNames ([((("t".data : List Char)),
          ["b.jpg".data, "a.jpg".data])].map fun ch => downloadedChapterDir ch.1 ch.2)).length
      = ([((("t".data : List Char)), ["b.jpg".data, "a.jpg".data])].map
          fun ch => ch.2.length).sum ∧
    collectVolumeFiles ([((("t".data : List Char)),
        ["b.jpg".data, "a.jpg".data])].map fun ch => downloadedChapterDir ch.1 ch.2)
      = ([((("t".data : List Char)), ["b.jpg".data, "a.jpg".data])].map
          fun ch => (storedPageNames ch.2).map (fun n => ch.1 ++ '/' :: n)).flatten :=
  ⟨(c4_archive_order _).1, (c4_archive_order _).2 (by decide)⟩

/-- C5: the chapter listing issued by `DownloadManga` does not use the
Work Request's configured language: for a config whose `MangaLanguage` is
`"de"`, the listing query still carries the hardcoded `"en"`. -/
theorem c5_listing_language :
    (downloadMangaListingQuery
        ⟨some "https://api.mangadex.org", 10000000000, 3, "m-id", "de", "out", "nm", ""⟩
        0).language = "en" ∧
    (downloadMangaListingQuery
        ⟨some "https://api.mangadex.org", 10000000000, 3, "m-id", "de", "out", "nm", ""⟩
        0).language ≠ "de" := by
  constructor
  · rfl
  · decide

/-- C6: aggregation retains exactly the chapters passing the volume
filter: the grouping loop equals a fold of map-append over the ids whose
normalized volume label matches the filter (all ids when the filter is
empty), each appended under its own normalized label. -/
theorem c6_volume_filtering (meta : String → ChapterMeta) (dl : String → String)
    (filt : String) (ids : List String) :
    groupChaptersByVolume meta dl filt ids []
      = (ids.filter (fun c => filt == "" || safeVolume (meta c).volume == filt)).foldl
          (fun m c => mapAppend m (safeVolume (meta c).volume) (dl c)) [] ∧
    (filt = "" →
      groupChaptersByVolume meta dl filt ids []
        = ids.foldl (fun m c => mapAppend m (safeVolume (meta c).volume) (dl c)) []) := by
  refine ⟨groupChaptersByVolume_filter meta dl filt ids [], ?_⟩
  intro h
  subst h
  rw [groupChaptersByVolume_filter meta dl "" ids []]
  simp

/-- C6, witness: with an empty filter both chapters of a two-chapter run
are retained and grouped. -/
theorem c6_volume_filtering_witness :
    groupChaptersByVolume (fun c => ⟨c, if c = "c1" then "1" else "2", "1", "t"⟩)
        (fun c => c ++ "-dir") "" ["c1", "c2"] []
      = ["c1", "c2"].foldl
          (fun m c => mapAppend m
            (safeVolume ((fun c => ChapterMeta.mk c (if c = "c1" then "1" else "2") "1" "t")
              c).volume) ((fun c => c ++ "-dir") c)) [] :=
  (c6_volume_filtering (fun c => ⟨c, if c = "c1" then "1" else "2", "1", "t"⟩)
    (fun c => c ++ "-dir") "" ["c1", "c2"]).2 rfl

/-- C7: the normalization used for the filter key, the group map key and
the archive file name replaces every path separator `'/'` by `'_'` and
leaves every other character unchanged — characterwise on any label, every
group key is the normalized label of a processed chapter, and every
archive written by a run is named from such a normalized label. -/
theorem c7_label_normalization :
    (∀ (s : String) (i : Nat),
      (safeVolume s).data[i]? = (s.data[i]?).map (fun c => if c = '/' then '_' else c)) ∧
    (∀ (meta : String → ChapterMeta) (dl : String → String) (filt : String)
      (ids : List String),
      ∀ k ∈ (groupChaptersByVolume meta dl filt ids []).map Prod.fst,
        ∃ c ∈ ids, k = safeVolume (meta c).volume) ∧
    (∀ (meta : String → ChapterMeta) (dl : String → String) (cfg : GoConfig)
      (ids : List String) (cmp rm : String → Bool) (fl : String),
      Ev.wrote fl ∈ (downloadMangaRun meta dl cfg ids cmp rm).1 →
      ∃ c ∈ ids, fl = archiveFileName cfg.name (safeVolume (meta c).volume)) := by
  refine ⟨?_, ?_, ?_⟩
  · intro s i
    simp [safeVolume, stringReplaceAllRune]
  · intro meta dl filt ids k hk
    rcases groupChaptersByVolume_keys meta dl filt ids [] k hk with h | h
    · simp at h
    · exact h
  · intro meta dl cfg ids cmp rm fl hfl
    obtain ⟨g, hg, hfl'⟩ := processVolumes_wrote cfg.name cmp rm _ fl hfl
    have hkey : g.1 ∈ (groupChaptersByVolume meta dl cfg.volume ids []).map Prod.fst :=
      List.mem_map_of_mem Prod.fst hg
    rcases groupChaptersByVolume_keys meta dl cfg.volume ids [] g.1 hkey with h | ⟨c, hc, hlbl⟩
    · simp at h
    · exact ⟨c, hc, by rw [hfl', hlbl]⟩

/-- C7, witness: the label `1/2` is normalized to `1_2` characterwise, and
the key `1_2` of a concrete grouped run is the normalized label of its
chapter. -/
theorem c7_label_normalization_witness :
    (safeVolume "a/b").data[1]? = ("a/b".data[1]?).map (fun c => if c = '/' then '_' else c) ∧
    ∃ c ∈ ["c1"],
      "1_2" = safeVolume ((fun _ => ChapterMeta.mk "c1" "1/2" "1" "t") c).volume :=
  ⟨c7_label_normalization.1 "a/b" 1,
   c7_label_normalization.2.1 (fun _ => ⟨"c1", "1/2", "1", "t"⟩) (fun c => c) "" ["c1"]
     "1_2" (by decide)⟩

/-- C8: every volume group holds at least one retained chapter directory,
and a run whose non-empty volume filter matches no chapter's normalized
label produces no archive, no event at all, and ends successfully. -/
theorem c8_no_empty_volume_archives :
    (∀ (meta : String → ChapterMeta) (dl : String → String) (filt : String)
      (ids : List String),
      ∀ g ∈ groupChaptersByVolume meta dl filt ids [], g.2 ≠ []) ∧
    (∀ (meta : String → ChapterMeta) (dl : String → String) (cfg : GoConfig)
      (ids : List String) (cmp rm : String → Bool),
      cfg.volume ≠ "" →
      (∀ c ∈ ids, safeVolume (meta c).volume ≠ cfg.volume) →
      downloadMangaRun meta dl cfg ids cmp rm = ([], .ok ())) := by
  constructor
  · intro meta dl filt ids g hg
    exact groupChaptersByVolume_values_ne_nil meta dl filt ids [] (by simp) g hg
  · intro meta dl cfg ids cmp rm hf hnone
    rw [downloadMangaRun, groupChaptersByVolume_all_skipped meta dl cfg.volume hf ids [] hnone]
    rfl

/-- C8, witness: the single group of a concrete unfiltered run is
non-empty, and a run filtered on volume `2` over a volume-`1` chapter
produces no archives and succeeds. -/
theorem c8_no_empty_volume_archives_witness :
    ((("1" : String), ["d1"]).2 ≠ []) ∧
    downloadMangaRun (fun _ => ⟨"c1", "1", "1", "t"⟩) (fun _ => "d1")
        ⟨some "u", 1, 3, "m", "en", "o", "nm", "2"⟩ ["c1"] (fun _ => true) (fun _ => true)
      = ([], .ok ()) :=
  ⟨c8_no_empty_volume_archives.1 (fun _ => ⟨"c1", "1", "1", "t"⟩) (fun _ => "d1") ""
      ["c1"] ("1", ["d1"]) (by decide),
   c8_no_empty_volume_archives.2 (fun _ => ⟨"c1", "1", "1", "t"⟩) (fun _ => "d1")
      ⟨some "u", 1, 3, "m", "en", "o", "nm", "2"⟩ ["c1"] (fun _ => true) (fun _ => true)
      (by decide) (by decide)⟩

/-- C9: when a temp directory of some volume group fails to delete (all
earlier groups succeeding), the run ends in a terminal error naming that
directory, even though that group's archive had already been written —
its write event is in the trace. -/
theorem c9_cleanup_failure_terminal (nm : String) (cmp rm : String → Bool)
    (lbl : String) (dirs : List String)
    (pre post : List (String × List String))
    (hpre : ∀ g ∈ pre, cmp g.1 = true ∧ ∀ d ∈ g.2, rm d = true)
    (hcmp : cmp lbl = true)
    (hfail : ∃ d ∈ dirs, rm d = false) :
    ∃ d ∈ dirs, rm d = false ∧
      (processVolumes nm cmp rm (pre ++ (lbl, dirs) :: post)).2
        = .error (.removeFailed lbl d) ∧
      Ev.wrote (archiveFileName nm lbl)
        ∈ (processVolumes nm cmp rm (pre ++ (lbl, dirs) :: post)).1 :=
  processVolumes_cleanup_failure nm cmp rm lbl dirs hcmp hfail pre post hpre

/-- C9, witness: with one healthy group before it, a group whose second
directory cannot be removed yields the terminal remove error while its
archive write event is present. -/
theorem c9_cleanup_failure_terminal_witness :
    ∃ d ∈ ["ok2", "bad"], (fun d' => d' != "bad") d = false ∧
      (processVolumes "b" (fun _ => true) (fun d' => d' != "bad")
          ([("0", ["ok1"])] ++ ("1", ["ok2", "bad"]) :: [])).2
        = .error (.removeFailed "1" d) ∧
      Ev.wrote (archiveFileName "b" "1")
        ∈ (processVolumes "b" (fun _ => true) (fun d' => d' != "bad")
            ([("0", ["ok1"])] ++ ("1", ["ok2", "bad"]) :: [])).1 :=
  c9_cleanup_failure_terminal "b" (fun _ => true) (fun d' => d' != "bad") "1"
    ["ok2", "bad"] [("0", ["ok1"])] [] (by decide) rfl (by decide)

/-- C10: `New` is pure construction that panics for every invalid
configuration — explicitly for a nil config, and for any config with an
empty `MangaID`, `MangaLanguage`, `Output` or `Name`, a non-positive
`Timeout`, an empty `APIUrl`, or a nil `APIUrl`; in the nil-`APIUrl` case
the panic is the nil-pointer dereference raised by `APIUrl.String()`
before any validation message of `New` itself. -/
theorem c10_new_validation :
    New none = .error (.message "Config cannot be nil") ∧
    (∀ cfg : GoConfig, cfg.apiUrl = none → New (some cfg) = .error .nilDeref) ∧
    (∀ cfg : GoConfig,
      cfg.apiUrl = none ∨ cfg.apiUrl = some "" ∨ cfg.timeout ≤ 0 ∨ cfg.mangaID = ""
        ∨ cfg.mangaLanguage = "" ∨ cfg.output = "" ∨ cfg.name = "" →
      ∃ p, New (some cfg) = .error p) := by
  refine ⟨rfl, ?_, ?_⟩
  · intro cfg h
    simp only [New, h]
  · intro cfg h
    cases hu : cfg.apiUrl with
    | none => exact ⟨.nilDeref, by simp only [New, hu]⟩
    | some u =>
      simp only [New, hu]
      by_cases h1 : u = ""
      · exact ⟨_, by rw [if_pos h1]⟩
      · rw [if_neg h1]
        by_cases h2 : cfg.timeout ≤ 0
        · exact ⟨_, by rw [if_pos h2]⟩
        · rw [if_neg h2]
          by_cases h3 : cfg.mangaID = ""
          · exact ⟨_, by rw [if_pos h3]⟩
          · rw [if_neg h3]
            by_cases h4 : cfg.mangaLanguage = ""
            · exact ⟨_, by rw [if_pos h4]⟩
            · rw [if_neg h4]
              by_cases h5 : cfg.output = ""
              · exact ⟨_, by rw [if_pos h5]⟩
              · rw [if_neg h5]
                by_cases h6 : cfg.name = ""
                · exact ⟨_, by rw [if_pos h6]⟩
                · exfalso
                  rcases h with h | h | h | h | h | h | h
                  · rw [hu] at h; exact Option.noConfusion h
                  · rw [hu] at h; exact h1 (Option.some.inj h)
                  · exact h2 h
                  · exact h3 h
                  · exact h4 h
                  · exact h5 h
                  · exact h6 h

/-- C10, witness: a config with a nil `APIUrl` panics with the nil
dereference, and a config with an empty `MangaID` panics. -/
theorem c10_new_validation_witness :
    New (some ⟨none, 1, 3, "m", "en", "o", "n", ""⟩) = .error .nilDeref ∧
    ∃ p, New (some ⟨some "u", 1, 3, "", "en", "o", "n", ""⟩) = .error p :=
  ⟨c10_new_validation.2.1 _ rfl, c10_new_validation.2.2 _ (by decide)⟩

end MangadexLoader
